import Mathlib

/-!
Verification of the ACL Anthology RAG client and pipeline spec.

The TypeScript client code (`client/src/lib/api.ts`, the chat components and
the monitoring panel) is shallowly embedded below: strings are `List Char`,
JavaScript array indexing is `jsIndex` (negative or out-of-range indices give
`none`), and the streaming `searchStream` function is modelled as a pure
function from the sequence of decoded reader reads (plus the terminal outcome
of the fetch promise) to the sequence of callback invocations it performs.
The backend Aggregator is Python code not present in this source tree; it is
modelled from the specification text (see `aggregate`).
-/

namespace AclRag

/-- Left and right curly brace characters (used by the JSON model). -/
def lbrace : Char := Char.ofNat 123

/-- Right curly brace character. -/
def rbrace : Char := Char.ofNat 125

/-- Split a character list on every occurrence of `sep`, keeping empty
segments, exactly like JavaScript `String.prototype.split` with a
single-character separator: `splitOnChar '-' "1-2" = ["1", "2"]`,
`splitOnChar '-' "-5" = ["", "5"]`. -/
def splitOnChar (sep : Char) : List Char → List (List Char)
  | [] => [[]]
  | c :: rest =>
    if c = sep then [] :: splitOnChar sep rest
    else
      match splitOnChar sep rest with
      | [] => [[c]]
      | h :: t => (c :: h) :: t

/-- `splitOnChar` never returns an empty list of segments. -/
theorem splitOnChar_ne_nil (sep : Char) (s : List Char) : splitOnChar sep s ≠ [] := by
  induction s with
  | nil => simp [splitOnChar]
  | cons c rest ih =>
    simp only [splitOnChar]
    split
    · simp
    · cases h : splitOnChar sep rest <;> simp

/-- `p.leadsWith s` models JavaScript `s.startsWith(p)`. -/
def leadsWith : List Char → List Char → Bool
  | [], _ => true
  | _ :: _, [] => false
  | p :: ps, c :: cs => p = c && leadsWith ps cs

/-- Decimal digit characters of a natural number, most significant first.
`fuel` bounds the recursion; the wrapper passes `n` itself, which always
suffices since `n / 10 < n` for `n ≥ 10`. -/
def natToCharsAux : Nat → Nat → List Char
  | 0, n => [Char.ofNat (48 + n)]
  | fuel + 1, n =>
    if n < 10 then [Char.ofNat (48 + n)]
    else natToCharsAux fuel (n / 10) ++ [Char.ofNat (48 + n % 10)]

/-- Decimal digit characters of a natural number, most significant first,
modelling JavaScript number-to-string conversion for non-negative integers. -/
def natToChars (n : Nat) : List Char := natToCharsAux n n

/-- Decimal rendering of an integer, modelling JavaScript template-string
interpolation of a number. -/
def intToChars (n : Int) : List Char :=
  if n < 0 then '-' :: natToChars n.natAbs else natToChars n.natAbs

/-! ## JSON values

`searchStream` calls `JSON.parse` on each SSE `data:` payload.  The payloads
this server emits at the granularity the client inspects are JSON string
literals (`chunk` events) and flat objects whose fields are string literals
(`metadata` / `error` events), so `JSON.parse` is modelled on exactly that
fragment: a failed parse (`none`) corresponds to `JSON.parse` throwing, which
the client catches and ignores. -/

/-- A JSON value of the fragment the stream payloads use. -/
inductive JVal where
  | str (s : List Char)
  | obj (fields : List (List Char × JVal))

/-- JSON insignificant whitespace. -/
def skipWs (s : List Char) : List Char :=
  s.dropWhile (fun c => c = ' ' || c = '\t' || c = '\n' || c = '\r')

/-- Parse the remainder of a JSON string literal (the opening quote already
consumed), handling the escapes `\" \\ \/ \n \t \r`; returns the decoded
characters and the input remaining after the closing quote. -/
def parseJString : List Char → Option (List Char × List Char)
  | [] => none
  | '"' :: rest => some ([], rest)
  | '\\' :: e :: rest =>
    match parseJString rest with
    | none => none
    | some (s, rem) =>
      if e = '"' || e = '\\' || e = '/' then some (e :: s, rem)
      else if e = 'n' then some ('\n' :: s, rem)
      else if e = 't' then some ('\t' :: s, rem)
      else if e = 'r' then some ('\r' :: s, rem)
      else none
  | c :: rest =>
    match parseJString rest with
    | none => none
    | some (s, rem) => some (c :: s, rem)

/-- Parse the fields of a JSON object (the opening brace already consumed),
field values restricted to string literals.  `fuel` bounds the recursion; the
callers pass the input length, which always suffices since every field
consumes at least one character. -/
def parseJFields : Nat → List Char → Option (List (List Char × JVal) × List Char)
  | 0, _ => none
  | fuel + 1, s =>
    match skipWs s with
    | [] => none
    | c :: rest =>
      if c = rbrace then some ([], rest)
      else if c = '"' then
        match parseJString rest with
        | none => none
        | some (key, rem1) =>
          match skipWs rem1 with
          | ':' :: rem2 =>
            match skipWs rem2 with
            | '"' :: rem3 =>
              match parseJString rem3 with
              | none => none
              | some (val, rem4) =>
                match skipWs rem4 with
                | ',' :: rem5 =>
                  match parseJFields fuel rem5 with
                  | none => none
                  | some (fs, rem6) => some ((key, JVal.str val) :: fs, rem6)
                | d :: rem5 =>
                  if d = rbrace then some ([(key, JVal.str val)], rem5) else none
                | [] => none
            | _ => none
          | _ => none
      else none

/-- Model of `JSON.parse` on a whole payload, restricted to the fragment
described above; `none` models a thrown `SyntaxError`. -/
def jsonParse (s : List Char) : Option JVal :=
  match skipWs s with
  | [] => none
  | '"' :: rest =>
    match parseJString rest with
    | some (str, rem) => if skipWs rem = [] then some (JVal.str str) else none
    | none => none
  | c :: rest =>
    if c = lbrace then
      match parseJFields (rest.length + 1) rest with
      | some (fs, rem) => if skipWs rem = [] then some (JVal.obj fs) else none
      | none => none
    else none

/-- Field lookup in a parsed JSON object, modelling JavaScript property
access `o.error` (first occurrence wins, absent fields are `undefined`). -/
def jlookup (key : List Char) : List (List Char × JVal) → Option JVal
  | [] => none
  | (k, v) :: rest => if k = key then some v else jlookup key rest

/-! ## The streaming search client (`searchStream`, `client/src/lib/api.ts`)

The model is a pure function of the sequence of decoded texts returned by
successive `reader.read()` calls, together with the terminal outcome of the
fetch promise chain.  All four callbacks are taken as provided (the `Chat`
component provides all of them), so each dispatched message maps to one
`Ev` value. -/

/-- One observable callback invocation of `searchStream`. -/
inductive Ev where
  | metadata (v : JVal)
  | chunk (v : JVal)
  | done
  | error (msg : List Char)

/-- The characters of `"event: "`. -/
def evPfxChars : List Char := ("event: ".data)

/-- The characters of `"data: "`. -/
def dataPfxChars : List Char := ("data: ".data)

/-- The message `"Stream error"` used when an `error` payload has no usable
`error` field. -/
def streamErrorChars : List Char := ("Stream error".data)

/-- The `Error` message produced from a parsed `error`-event payload:
`errorData.error || "Stream error"` — a non-empty string field is used as is,
an empty or absent field (both falsy/undefined) falls back to the generic
message, and a (truthy) object field stringifies as `[object Object]`. -/
def errorMessageOf : JVal → List Char
  | JVal.str _ => streamErrorChars
  | JVal.obj fs =>
    match jlookup ("error".data) fs with
    | some (JVal.str s) => if s = [] then streamErrorChars else s
    | some (JVal.obj _) => ("[object Object]".data)
    | none => streamErrorChars

/-- Dispatch of one complete SSE message (its `event:` name and final
`data:` line), modelling the `try` block at the empty-line case: a payload
that fails to parse dispatches nothing (the exception is caught and logged),
and an unrecognized event name dispatches nothing. -/
def dispatchMessage (ev dat : List Char) : List Ev :=
  if ev = ("metadata".data) then
    match jsonParse dat with
    | some v => [Ev.metadata v]
    | none => []
  else if ev = ("chunk".data) then
    match jsonParse dat with
    | some v => [Ev.chunk v]
    | none => []
  else if ev = ("done".data) then [Ev.done]
  else if ev = ("error".data) then
    match jsonParse dat with
    | some v => [Ev.error (errorMessageOf v)]
    | none => []
  else []

/-- The inner `for (const line of lines)` loop of `searchStream`: thread the
`currentEvent` / `currentData` variables through the complete lines of one
read, collecting the dispatched callbacks.  Both variables are declared
inside the read iteration in the source, so their final values are discarded
by the caller. -/
def processLines : List (List Char) → List Char → List Char → List Ev
  | [], _, _ => []
  | line :: rest, ev, dat =>
    if leadsWith evPfxChars line then processLines rest (line.drop 7) dat
    else if leadsWith dataPfxChars line then processLines rest ev (line.drop 6)
    else if line = [] ∧ ev ≠ [] then
      dispatchMessage ev dat ++ processLines rest [] []
    else processLines rest ev dat

/-- One iteration of the `while (true)` read loop: append the decoded read to
the buffer, split on newlines, keep the trailing incomplete line as the new
buffer, and process the complete lines with freshly reset event state.
Returns the new buffer and the callbacks dispatched during this read. -/
def readStep (buffer chunk : List Char) : List Char × List Ev :=
  let parts := splitOnChar '\n' (buffer ++ chunk)
  (parts.getLastD [], processLines parts.dropLast [] [])

/-- Fold `readStep` over the successive reads, starting from an empty
buffer. -/
def runReads : List Char → List (List Char) → List Ev
  | _, [] => []
  | buffer, chunk :: rest =>
    let s := readStep buffer chunk
    s.2 ++ runReads s.1 rest

/-- How the fetch promise chain ends: `closed` is a normal end of stream
(`reader.read()` reports done); `failed name msg` is a rejection reaching the
`.catch` handler with an `Error` whose `name` and `message` are given —
cancellation surfaces here as `name = "AbortError"`. -/
inductive Outcome where
  | closed
  | failed (name msg : List Char)

/-- The full observable behaviour of `searchStream`: the callbacks dispatched
while consuming the reads, followed by the tail of the promise chain — after
a normal end of stream the code invokes `onDone()` unconditionally, and the
`.catch` handler swallows `AbortError` but forwards any other rejection to
`onError`. -/
def searchStream (reads : List (List Char)) (outcome : Outcome) : List Ev :=
  runReads [] reads ++
    match outcome with
    | Outcome.closed => [Ev.done]
    | Outcome.failed name msg =>
      if name = ("AbortError".data) then [] else [Ev.error msg]

/-! ## Data model of the client (`client/src/lib/api.ts` interfaces) -/

/-- The `PaperMetadata` interface. -/
structure PaperMetadata where
  paper_id : List Char
  title : List Char
  abstract : Option (List Char) := none
  year : Option (List Char) := none
  authors : Option (List (List Char)) := none
  pdf_url : Option (List Char) := none
deriving DecidableEq

/-- The `SearchResult` interface; the similarity score is modelled as a
rational. -/
structure SearchResult where
  paper : PaperMetadata
  score : ℚ
deriving DecidableEq

/-- JavaScript array indexing `rs[i]`: `undefined` (here `none`) for negative
or out-of-range indices. -/
def jsIndex (rs : List α) (i : Int) : Option α :=
  if 0 ≤ i then rs[i.toNat]? else none

/-! ## Citation parsing (`ChatMessage.tsx`) -/

/-- A character matched by the separator class `[,\s]` of the
`text.split(/[,\s]+/)` call in `parseCitationNumbers`. -/
def isSepChar (c : Char) : Bool := c = ',' || c.isWhitespace

/-- Dropping a prefix cannot lengthen a list. -/
theorem dropWhileLen (p : Char → Bool) (l : List Char) :
    (l.dropWhile p).length ≤ l.length := by
  induction l with
  | nil => simp
  | cons c rest ih =>
    rw [List.dropWhile]
    split
    · exact Nat.le_succ_of_le ih
    · simp

/-- The token-splitting recursion, bounded by `fuel`; the wrapper passes the
input length, which always suffices since each step consumes at least one
character. -/
def tokensOfAux : Nat → List Char → List (List Char)
  | 0, _ => []
  | fuel + 1, s =>
    match s with
    | [] => []
    | c :: rest =>
      if isSepChar c then tokensOfAux fuel rest
      else
        (c :: rest.takeWhile (fun d => !isSepChar d)) ::
          tokensOfAux fuel (rest.dropWhile (fun d => !isSepChar d))

/-- `text.split(/[,\s]+/).filter(Boolean)`: the maximal runs of
non-separator characters, in order. -/
def tokensOf (s : List Char) : List (List Char) := tokensOfAux s.length s

/-- Value of a non-empty string of decimal digits. -/
def digitsVal (ds : List Char) : Int :=
  ds.foldl (fun acc c => acc * 10 + ((c.toNat : Int) - 48)) 0

/-- Model of JavaScript `Number(p)` on the hyphen-split parts arising in
`parseCitationNumbers`: the empty string converts to `0`, a string of
decimal digits to its value, and any other part (which would convert to
`NaN` or to a non-integer) to `none`, which the `isNaN` guard rejects. -/
def jsNumberOfPart (p : List Char) : Option Int :=
  if p = [] then some 0
  else if p.all (fun c => c.isDigit) then some (digitsVal p)
  else none

/-- Model of `parseInt(t, 10)` on the separator-free tokens arising here
(no leading whitespace or sign): the value of the longest digit prefix, or
`none` (`NaN`) when the token does not start with a digit. -/
def parseIntJS (t : List Char) : Option Int :=
  let ds := t.takeWhile (fun c => c.isDigit)
  if ds = [] then none else some (digitsVal ds)

/-- The ascending run `[a, a+1, ..., b]` produced by
`for (let i = start; i <= end; i++)`. -/
def jsRange (a b : Int) : List Int :=
  (List.range (b - a + 1).toNat).map (fun k => a + (k : Int))

/-- The numbers contributed by one token of the citation text: the
`part.includes("-")` branch destructures the first two `split("-")` parts
through `Number` and emits the closed range when neither is `NaN`; the other
branch emits the `parseInt` value when it is not `NaN`. -/
def tokenNumbers (t : List Char) : List Int :=
  if t.contains '-' then
    match splitOnChar '-' t with
    | p1 :: p2 :: _ =>
      match jsNumberOfPart p1, jsNumberOfPart p2 with
      | some a, some b => jsRange a b
      | _, _ => []
    | _ => []
  else
    match parseIntJS t with
    | some n => [n]
    | none => []

/-- `parseCitationNumbers` from `ChatMessage.tsx`: split the citation text
into tokens and concatenate each token's contribution in order. -/
def parseCitationNumbers (s : List Char) : List Int :=
  (tokensOf s).flatMap tokenNumbers

/-! ## Citation scanning (`processCitations` in `ChatMessage.tsx`)

The regex `\[(\d+(?:[,\s-]+\d+)*)\]` is executed globally over a text node.
It is modelled by a direct leftmost scanner; because the characters able to
follow a shorter iteration of the greedy groups (`\d`, `,`, whitespace, `-`)
never include `]`, greedy matching without backtracking decides exactly the
same matches as the regex engine. -/

/-- A character of the inner separator class `[,\s-]`. -/
def isCiteSep (c : Char) : Bool := c = ',' || c = '-' || c.isWhitespace

/-- Greedily consume `(?:[,\s-]+\d+)*`, returning the consumed characters
and the remainder.  `fuel` bounds the recursion; callers pass the input
length, which suffices since every iteration consumes at least two
characters. -/
def matchTail : Nat → List Char → List Char × List Char
  | 0, s => ([], s)
  | fuel + 1, s =>
    let seps := s.takeWhile isCiteSep
    if seps = [] then ([], s)
    else
      let u := s.dropWhile isCiteSep
      let ds := u.takeWhile (fun c => c.isDigit)
      if ds = [] then ([], s)
      else
        let t := matchTail fuel (u.dropWhile (fun c => c.isDigit))
        (seps ++ ds ++ t.1, t.2)

/-- Try to match `\[(\d+(?:[,\s-]+\d+)*)\]` at the head of `s`; on success
return the inner captured text and the remainder after `]`. -/
def matchCitation : List Char → Option (List Char × List Char)
  | '[' :: t =>
    let ds := t.takeWhile (fun c => c.isDigit)
    if ds = [] then none
    else
      let t1 := t.dropWhile (fun c => c.isDigit)
      let m := matchTail t1.length t1
      match m.2 with
      | ']' :: r => some (ds ++ m.1, r)
      | _ => none
  | _ => none

/-- A fragment of the rendered assistant text: literal text, or an
`InlineCitation` element carrying the citation number and the result bound
to it. -/
inductive Part where
  | text (s : List Char)
  | cite (n : Int) (r : Option SearchResult)
deriving DecidableEq

/-- Prepend a literal character to a part list, merging with a leading text
part (reconstructing the contiguous text slices the source pushes between
matches). -/
def consChar (c : Char) : List Part → List Part
  | Part.text u :: ps => Part.text (c :: u) :: ps
  | ps => Part.text [c] :: ps

/-- The `citationPattern.exec` loop of `processCitations` on a string node:
at each position, if the citation regex matches, parse the captured text
with `parseCitationNumbers` and push one `InlineCitation` per number, bound
to `results[num - 1]`; otherwise the character joins the surrounding literal
text.  `fuel` bounds the recursion; callers pass the input length. -/
def scanCitations (rs : List SearchResult) : Nat → List Char → List Part
  | 0, s => if s = [] then [] else [Part.text s]
  | fuel + 1, s =>
    match s with
    | [] => []
    | c :: t =>
      match matchCitation s with
      | some (inner, rest) =>
        ((parseCitationNumbers inner).map (fun n => Part.cite n (jsIndex rs (n - 1))))
          ++ scanCitations rs fuel rest
      | none => consChar c (scanCitations rs fuel t)

/-- `processCitations` from `ChatMessage.tsx`, on a string child. -/
def processCitations (rs : List SearchResult) (s : List Char) : List Part :=
  scanCitations rs s.length s

/-! ## `InlineCitation.tsx` -/

/-- What `InlineCitation` renders: either a plain text span, or the popover
trigger button (with the fields the component reads from the result). -/
inductive RenderedCitation where
  | plainText (s : List Char)
  | popoverButton (label : List Char) (paper : PaperMetadata) (scorePercent : Int)
deriving DecidableEq

/-- The text `[n]` of a citation marker. -/
def citationMarker (n : Int) : List Char := '[' :: (intToChars n ++ [']'])

/-- The `InlineCitation` component: with no result bound it renders the
plain marker text and reads nothing else; with a result it renders the
popover trigger, reading the paper fields and `Math.round(score * 100)`
(Mathlib's `round` agrees with `Math.round` on halves: both round toward
positive infinity). -/
def InlineCitation (n : Int) (r : Option SearchResult) : RenderedCitation :=
  match r with
  | none => RenderedCitation.plainText (citationMarker n)
  | some res =>
    RenderedCitation.popoverButton (citationMarker n) res.paper (round (res.score * 100))

/-! ## Filters and their user-visible renderings -/

/-- The `YearFilter` interface: `null`/`undefined` both map to `none`. -/
structure YearFilter where
  exact : Option Int := none
  min_year : Option Int := none
  max_year : Option Int := none
deriving DecidableEq

/-- The `SearchFilters` interface. -/
structure SearchFilters where
  year : Option YearFilter := none
  bibkey : Option (List Char) := none
  title_keywords : Option (List (List Char)) := none
  language : Option (List Char) := none
  authors : Option (List (List Char)) := none
  has_awards : Option Bool := none
  awards : Option (List (List Char)) := none
deriving DecidableEq

/-- JavaScript truthiness of an optional number: `null`, `undefined` and `0`
are falsy. -/
def truthyInt : Option Int → Bool
  | some v => v != 0
  | none => false

/-- JavaScript truthiness of an optional string: `null`, `undefined` and the
empty string are falsy. -/
def truthyStr : Option (List Char) → Bool
  | some s => !s.isEmpty
  | none => false

/-- One endpoint of the rendered year range: `min_year || "..."`. -/
def yearBoundChars (o : Option Int) : List Char :=
  match o with
  | some v => if v ≠ 0 then intToChars v else ("...".data)
  | none => ("...".data)

/-- `formatAppliedFilters` from `ChatMessage.tsx`: renders the applied
filters into the `Filtered by:` line, or `null` when nothing renders.  The
year branch is an `if / else if`: a truthy `exact` renders alone and the
range renders only otherwise. -/
def formatAppliedFilters (filters : Option SearchFilters) : Option (List Char) :=
  match filters with
  | none => none
  | some f =>
    let parts : List (List Char) :=
      (match f.year with
       | some yf =>
         if truthyInt yf.exact then
           [("year: ".data) ++ intToChars yf.exact.iget]
         else if truthyInt yf.min_year || truthyInt yf.max_year then
           [("year: ".data) ++ yearBoundChars yf.min_year ++ ['-'] ++
             yearBoundChars yf.max_year]
         else []
       | none => []) ++
      (match f.authors with
       | some as =>
         if as.length > 0 then [("authors: ".data) ++ (List.intercalate (", ".data) as)]
         else []
       | none => []) ++
      (if f.has_awards = some true then [("award-winning".data)] else []) ++
      (if truthyStr f.language then [("language: ".data) ++ f.language.iget] else []) ++
      (if truthyStr f.bibkey then [("bibkey: ".data) ++ f.bibkey.iget] else [])
    if parts.length > 0 then some (List.intercalate (" · ".data) parts) else none

/-- The `key === 'year'` branch of `formatFilterValue` in
`MonitoringPanel.tsx`: each truthy field of the year object is rendered,
independently of the others, and joined with `", "`; an all-falsy object
renders as `"year filter"`. -/
def formatFilterValueYear (v : YearFilter) : List Char :=
  let parts : List (List Char) :=
    (if truthyInt v.exact then [("exact: ".data) ++ intToChars v.exact.iget] else []) ++
    (if truthyInt v.min_year then [("from: ".data) ++ intToChars v.min_year.iget] else []) ++
    (if truthyInt v.max_year then [("to: ".data) ++ intToChars v.max_year.iget] else [])
  if parts = [] then ("year filter".data) else List.intercalate (", ".data) parts

/-! ## The search request body (`searchStream`, lines 78–88 of `api.ts`) -/

/-- The `SearchRequest` body posted to `/api/search`. -/
structure SearchRequest where
  query : List Char
  top_k : Int
deriving DecidableEq

/-- Construction of the request body: `const { topK = 5 } = options` applies
the default exactly when the option is absent (`undefined`). -/
def searchRequestBody (query : List Char) (topK : Option Int) : SearchRequest :=
  { query := query, top_k := topK.getD 5 }

/-! ## The Aggregator

Modelled from the spec: the Aggregator is part of the Python backend, which
is not present in this source tree (only its documentation is).  The
definitions below follow §4.5 of the spec: per-paper RRF accumulation
`Σ 1/(RRF_K + rank)` with `RRF_K = 60`, mean raw similarity, normalization
of RRF by the maximum observed in the request, fused score
`w * avg_similarity + (1 - w) * normalized_rrf` with `w = 3/10`, sorting
descending by fused score with ties broken by earliest sub-query appearance
then `paper_id`, and truncation to `top_k`. -/

/-- One hit of one sub-query's candidate list (paper identity and raw
similarity score). -/
structure SubResult where
  paper_id : String
  score : ℚ
deriving DecidableEq

/-- A candidate paper accumulated across sub-queries. -/
structure Candidate where
  paper_id : String
  firstSeen : Nat
  scores : List ℚ
  rrf : ℚ
deriving DecidableEq

/-- The fixed RRF constant. -/
def rrfK : ℚ := 60

/-- The similarity weight `w` of the hybrid fusion. -/
def wSim : ℚ := 3 / 10

/-- Record one hit (sub-query index `qi`, 1-indexed `rank`) into the
candidate pool, merging with an existing candidate of the same paper. -/
def addHit (acc : List Candidate) (qi rank : Nat) (r : SubResult) : List Candidate :=
  if acc.any (fun c => c.paper_id = r.paper_id) then
    acc.map (fun c =>
      if c.paper_id = r.paper_id then
        { c with scores := c.scores ++ [r.score], rrf := c.rrf + 1 / (rrfK + rank) }
      else c)
  else
    acc ++ [{ paper_id := r.paper_id, firstSeen := qi, scores := [r.score],
              rrf := 1 / (rrfK + rank) }]

/-- Accumulate the candidate pool over all sub-query result lists. -/
def candidatesOf (lists : List (List SubResult)) : List Candidate :=
  (lists.enum).foldl
    (fun acc ql => (ql.2.enum).foldl (fun acc2 jr => addHit acc2 ql.1 (jr.1 + 1) jr.2) acc)
    []

/-- An element of the fused, ranked output. -/
structure FusedEntry where
  paper_id : String
  firstSeen : Nat
  fused : ℚ
deriving DecidableEq

/-- Mean of a list of rationals (0 for the empty list, which does not arise:
every candidate has at least one score). -/
def meanOf (xs : List ℚ) : ℚ := xs.sum / xs.length

/-- The ordering of the fused output: strictly greater fused score first,
ties broken by earliest sub-query appearance, then by `paper_id`. -/
def aggLe (a b : FusedEntry) : Prop :=
  b.fused < a.fused ∨
    (a.fused = b.fused ∧
      (a.firstSeen < b.firstSeen ∨ (a.firstSeen = b.firstSeen ∧ a.paper_id ≤ b.paper_id)))

instance : DecidableRel aggLe := fun a b => by
  unfold aggLe; infer_instance

instance : IsTotal FusedEntry aggLe where
  total a b := by
    unfold aggLe
    rcases lt_trichotomy a.fused b.fused with h | h | h
    · exact Or.inr (Or.inl h)
    · rcases lt_trichotomy a.firstSeen b.firstSeen with h2 | h2 | h2
      · exact Or.inl (Or.inr ⟨h, Or.inl h2⟩)
      · rcases le_total a.paper_id b.paper_id with h3 | h3
        · exact Or.inl (Or.inr ⟨h, Or.inr ⟨h2, h3⟩⟩)
        · exact Or.inr (Or.inr ⟨h.symm, Or.inr ⟨h2.symm, h3⟩⟩)
      · exact Or.inr (Or.inr ⟨h.symm, Or.inl h2⟩)
    · exact Or.inl (Or.inl h)

instance : IsTrans FusedEntry aggLe where
  trans a b c hab hbc := by
    unfold aggLe at *
    rcases hab with h1 | ⟨e1, h1⟩
    · rcases hbc with h2 | ⟨e2, _⟩
      · exact Or.inl (h2.trans h1)
      · exact Or.inl (e2 ▸ h1)
    · rcases hbc with h2 | ⟨e2, h2⟩
      · exact Or.inl (e1 ▸ h2)
      · refine Or.inr ⟨e1.trans e2, ?_⟩
        rcases h1 with h1 | ⟨f1, h1⟩
        · rcases h2 with h2 | ⟨f2, _⟩
          · exact Or.inl (h1.trans h2)
          · exact Or.inl (f2 ▸ h1)
        · rcases h2 with h2 | ⟨f2, h2⟩
          · exact Or.inl (f1 ▸ h2)
          · exact Or.inr ⟨f1.trans f2, h1.trans h2⟩

/-- Modelled from the spec (§4.5): the Aggregator's hybrid fusion.  Compute
each candidate's RRF sum and mean similarity, normalize RRF by the maximum
RRF of the pool, take the weighted fused score, sort by `aggLe` and truncate
to `top_k`. -/
def aggregate (lists : List (List SubResult)) (topK : Nat) : List FusedEntry :=
  let cs := candidatesOf lists
  let maxR := cs.foldl (fun m c => max m c.rrf) 0
  let fusedList := cs.map (fun c =>
    { paper_id := c.paper_id, firstSeen := c.firstSeen,
      fused := wSim * meanOf c.scores + (1 - wSim) * (c.rrf / maxR) : FusedEntry })
  (List.insertionSort aggLe fusedList).take topK

/-! ## Sample data used by witnesses -/

/-- A concrete paper. -/
def samplePaper1 : PaperMetadata :=
  { paper_id := ("p1".data), title := ("Paper One".data) }

/-- Another concrete paper. -/
def samplePaper2 : PaperMetadata :=
  { paper_id := ("p2".data), title := ("Paper Two".data) }

/-- A concrete search result. -/
def sampleResult1 : SearchResult := { paper := samplePaper1, score := 1 / 2 }

/-- Another concrete search result. -/
def sampleResult2 : SearchResult := { paper := samplePaper2, score := 7 / 10 }

/-- A concrete two-element result list. -/
def sampleResults : List SearchResult := [sampleResult1, sampleResult2]

/-! ## Claim theorems -/

/-- C1: a stream whose messages are exactly one `metadata` event, two
`chunk` events and one `done` event invokes `onMetadata` once, `onChunk`
once per chunk in order and `onError` never — but `onDone` is invoked
twice: once when the `done` event is dispatched and once more,
unconditionally, when the reader reports the end of the stream, although
the source comment says `Call onDone if not already called`. -/
theorem searchStream_done_invoked_twice :
    searchStream
      [("event: metadata\ndata: \x7b\x7d\n\nevent: chunk\ndata: \"a\"\n\nevent: chunk\ndata: \"b\"\n\nevent: done\ndata: \x7b\x7d\n\n".data)]
      Outcome.closed =
      [Ev.metadata (JVal.obj []), Ev.chunk (JVal.str ("a".data)),
        Ev.chunk (JVal.str ("b".data)), Ev.done, Ev.done] := by
  rfl

/-- C4: when the caller aborts, the pending `reader.read()` rejects with an
`AbortError`, which the `.catch` handler swallows: the callbacks observed
are exactly those already dispatched from the reads completed before the
abort, with no trailing `onDone` or `onError` of any kind. -/
theorem searchStream_abort_swallowed (reads : List (List Char)) (msg : List Char) :
    searchStream reads (Outcome.failed ("AbortError".data) msg) = runReads [] reads := by
  simp [searchStream]

/-- C7: an `error` event reaches `onError` with the payload's `error` field
as the message (or `Stream error` when the field is absent) — but `onError`
is not terminal: when the stream then closes, the unconditional trailing
`onDone()` fires another callback after it. -/
theorem searchStream_error_event_behaviour :
    searchStream [("event: error\ndata: \x7b\"error\": \"boom\"\x7d\n\n".data)] Outcome.closed =
        [Ev.error ("boom".data), Ev.done] ∧
      searchStream [("event: error\ndata: \x7b\x7d\n\n".data)] Outcome.closed =
        [Ev.error ("Stream error".data), Ev.done] := by
  exact ⟨rfl, rfl⟩

/-- C8 counterexample: one SSE byte stream, two partitions into reads —
delivered whole, a `chunk` message is dispatched and then the trailing done
fires; split between its `event:` line and its `data:` line, the pending
event name is discarded at the read boundary and the chunk is lost, so the
callback sequences differ. -/
theorem searchStream_rechunking_dependent :
    searchStream [("event: chunk\ndata: \"hi\"\n\n".data)] Outcome.closed ≠
      searchStream [("event: chunk\n".data), ("data: \"hi\"\n\n".data)] Outcome.closed := by
  have h1 : searchStream [("event: chunk\ndata: \"hi\"\n\n".data)] Outcome.closed =
      [Ev.chunk (JVal.str ("hi".data)), Ev.done] := rfl
  have h2 : searchStream [("event: chunk\n".data), ("data: \"hi\"\n\n".data)] Outcome.closed =
      [Ev.done] := rfl
  rw [h1, h2]
  simp

/-- C9 counterexample: the token `-5` is neither a plain numeric token nor a
range `a-b` of two numeric endpoints, yet it contributes `0, 1, 2, 3, 4, 5`:
`"-5".split("-")` yields an empty first part and `Number("")` is `0`, so the
loop runs from 0 to 5. -/
theorem parseCitationNumbers_dash_token :
    parseCitationNumbers ("-5".data) = [0, 1, 2, 3, 4, 5] := by
  rfl

/-- C5 counterexample: a `YearFilter` carrying both the exact form and the
range form is rendered by the monitoring panel's `formatFilterValue` with
the `min_year`/`max_year` bounds alongside the exact year, not with the
exact year alone. -/
theorem formatFilterValueYear_shows_bounds :
    formatFilterValueYear { exact := some 2020, min_year := some 2018, max_year := some 2022 } =
      ("exact: 2020, from: 2018, to: 2022".data) := by
  rfl

/-- C5 amended: in the chat message rendering (`formatAppliedFilters`) the
exact form does take precedence — with a truthy `exact` year the rendered
filters are identical whatever the `min_year`/`max_year` bounds are. -/
theorem formatAppliedFilters_exact_precedence (f : SearchFilters) (yf : YearFilter)
    (v : Int) (hy : f.year = some yf) (he : yf.exact = some v) (hv : v ≠ 0) :
    formatAppliedFilters (some f) =
      formatAppliedFilters (some { f with year := some { exact := some v } }) := by
  have ht : truthyInt (some v) = true := by
    simp [truthyInt, hv]
  simp [formatAppliedFilters, hy, he, ht]

/-- Witness for C5's amended theorem at a concrete filter record. -/
theorem formatAppliedFilters_exact_precedence_witness :
    ({ year := some { exact := some 2020, min_year := some 2018, max_year := some 2022 } :
        SearchFilters }.year =
          some { exact := some 2020, min_year := some 2018, max_year := some 2022 }) ∧
      formatAppliedFilters
          (some { year := some { exact := some 2020, min_year := some 2018,
                                 max_year := some 2022 } }) =
        formatAppliedFilters (some { year := some { exact := some (2020 : Int) } }) := by
  refine ⟨rfl, ?_⟩
  exact formatAppliedFilters_exact_precedence _ _ 2020 rfl rfl (by decide)

/-- C6: the request body posted by `searchStream` carries `top_k = 5` when
the caller omits `topK`, and exactly the supplied value otherwise. -/
theorem searchRequestBody_topK (q : List Char) :
    (searchRequestBody q none).top_k = 5 ∧
      ∀ k : Int, (searchRequestBody q (some k)).top_k = k := by
  exact ⟨rfl, fun _ => rfl⟩

/-- A citation part never escapes `consChar`: prepending a literal character
preserves the citation parts of a part list. -/
theorem cite_mem_consChar {n : Int} {r : Option SearchResult} {c : Char} {ps : List Part}
    (h : Part.cite n r ∈ consChar c ps) : Part.cite n r ∈ ps := by
  cases ps with
  | nil => simp [consChar] at h
  | cons p ps' =>
    cases p with
    | text u =>
      simp only [consChar] at h
      rcases List.mem_cons.mp h with h | h
      · exact absurd h (by simp)
      · exact List.mem_cons_of_mem _ h
    | cite m r2 =>
      simp only [consChar] at h
      rcases List.mem_cons.mp h with h | h
      · exact absurd h (by simp)
      · exact h

/-- Every citation part the scanner emits is bound to `results[num - 1]`. -/
theorem scanCitations_cite_binding (rs : List SearchResult) :
    ∀ (fuel : Nat) (s : List Char) (n : Int) (r : Option SearchResult),
      Part.cite n r ∈ scanCitations rs fuel s → r = jsIndex rs (n - 1) := by
  intro fuel
  induction fuel with
  | zero =>
    intro s n r h
    simp only [scanCitations] at h
    split at h
    · simp at h
    · rcases List.mem_singleton.mp h with h
      exact absurd h (by simp)
  | succ fuel ih =>
    intro s n r h
    simp only [scanCitations] at h
    split at h
    · simp at h
    · rename_i c t
      split at h
      · rename_i inner rest hm
        rcases List.mem_append.mp h with h | h
        · rcases List.mem_map.mp h with ⟨m, _, hp⟩
          cases hp
          rfl
        · exact ih rest n r h
      · exact ih t n r (cite_mem_consChar h)

/-- C2: every bracketed citation marker `[n]` in an assistant message text
is bound during rendering to `results[n - 1]`, the n-th element of the
result list in 1-indexed order. -/
theorem processCitations_binding (rs : List SearchResult) (s : List Char) (n : Int)
    (r : Option SearchResult) (h : Part.cite n r ∈ processCitations rs s) :
    r = jsIndex rs (n - 1) :=
  scanCitations_cite_binding rs s.length s n r h

/-- Witness for C2 at a concrete message text and result list. -/
theorem processCitations_binding_witness :
    (Part.cite 2 (some sampleResult2) ∈
        processCitations sampleResults ("see [2].".data)) ∧
      some sampleResult2 = jsIndex sampleResults (2 - 1) := by
  have hc : processCitations sampleResults ("see [2].".data) =
      [Part.text ("see ".data), Part.cite 2 (some sampleResult2), Part.text (".".data)] := rfl
  have hm : Part.cite 2 (some sampleResult2) ∈
      processCitations sampleResults ("see [2].".data) := by
    rw [hc]; simp
  exact ⟨hm, processCitations_binding sampleResults ("see [2].".data) 2 (some sampleResult2) hm⟩

/-- C10: a citation number with no corresponding entry in the result list
(its 1-indexed lookup is out of range) renders as the plain text marker
`[n]`; no field of a missing result is ever read. -/
theorem inlineCitation_out_of_range (s : List Char) (rs : List SearchResult) (n : Int)
    (r : Option SearchResult) (h : Part.cite n r ∈ processCitations rs s)
    (hn : (rs.length : Int) < n) :
    InlineCitation n r = RenderedCitation.plainText (citationMarker n) := by
  have hr := scanCitations_cite_binding rs s.length s n r h
  have hnone : jsIndex rs (n - 1) = none := by
    unfold jsIndex
    rw [if_pos (by omega)]
    apply List.getElem?_eq_none
    omega
  rw [hr, hnone]
  rfl

/-- Witness for C10: in a two-result list, the marker `[5]` renders as plain
text. -/
theorem inlineCitation_out_of_range_witness :
    (Part.cite 5 none ∈ processCitations sampleResults ("[5]".data)) ∧
      InlineCitation 5 none = RenderedCitation.plainText (citationMarker 5) := by
  have hc : processCitations sampleResults ("[5]".data) = [Part.cite 5 none] := rfl
  have hm : Part.cite 5 none ∈ processCitations sampleResults ("[5]".data) := by
    rw [hc]; simp
  exact ⟨hm, inlineCitation_out_of_range ("[5]".data) sampleResults 5 none hm (by decide)⟩

/-- C3: every aggregated result list is sorted: fused scores are
non-increasing by position, adjacent order is the full descending order with
ties broken by earliest sub-query appearance then `paper_id` (`aggLe`), and
the list is truncated to at most `top_k` elements. -/
theorem aggregate_sorted_truncated (lists : List (List SubResult)) (topK : Nat) :
    (aggregate lists topK).Pairwise (fun a b => b.fused ≤ a.fused) ∧
      (aggregate lists topK).Pairwise aggLe ∧
      (aggregate lists topK).length ≤ topK := by
  have hsorted : (aggregate lists topK).Pairwise aggLe := by
    apply List.Pairwise.sublist (List.take_sublist _ _)
    exact List.sorted_insertionSort aggLe _
  refine ⟨?_, hsorted, ?_⟩
  · refine hsorted.imp ?_
    intro a b hab
    rcases hab with h | ⟨h, _⟩
    · exact le_of_lt h
    · exact le_of_eq h.symm
  · have : (aggregate lists topK).length ≤ min topK
        (List.insertionSort aggLe ((candidatesOf lists).map (fun c =>
          { paper_id := c.paper_id, firstSeen := c.firstSeen,
            fused := wSim * meanOf c.scores +
              (1 - wSim) * (c.rrf / (candidatesOf lists).foldl
                (fun m c => max m c.rrf) 0) : FusedEntry }))).length := by
      simp [aggregate, List.length_take]
    omega

/-! ## Characterization of `parseCitationNumbers` (C9) -/

/-- The characters a citation text captured by the citation regex can
contain: digits, hyphens, commas and spaces. -/
def isCiteChar (c : Char) : Bool := c.isDigit || c = '-' || c = ',' || c = ' '

/-- The integer value of a hyphen-split part under the amended reading:
an empty part counts as 0 (as `Number("")` does), a digit part as its
value. -/
def partVal (p : List Char) : Int := if p = [] then 0 else digitsVal p

/-- The amended per-token contribution: a token without a hyphen contributes
its integer value; a token with hyphens splits on `-`, its first two parts
are read as integers with empty parts counting as 0, and it contributes the
run from the first to the second (nothing when the first exceeds the
second); parts beyond the second are ignored. -/
def tokenSpec (t : List Char) : List Int :=
  if t.contains '-' then
    match splitOnChar '-' t with
    | p1 :: p2 :: _ => jsRange (partVal p1) (partVal p2)
    | _ => []
  else [digitsVal t]

/-- A predicate holding on every element leaves `takeWhile` the identity. -/
theorem takeWhile_all (p : Char → Bool) :
    ∀ (t : List Char), (∀ c ∈ t, p c = true) → t.takeWhile p = t := by
  intro t
  induction t with
  | nil => intro _; rfl
  | cons c rest ih =>
    intro h
    rw [List.takeWhile_cons, h c (List.mem_cons_self c rest),
      ih (fun x hx => h x (List.mem_cons_of_mem c hx))]
    simp

/-- The tokens produced by `tokensOfAux` are non-empty runs of
non-separator characters of the input. -/
theorem tokensOfAux_mem :
    ∀ (fuel : Nat) (s t : List Char), t ∈ tokensOfAux fuel s →
      t ≠ [] ∧ ∀ c ∈ t, c ∈ s ∧ isSepChar c = false := by
  intro fuel
  induction fuel with
  | zero => intro s t h; simp [tokensOfAux] at h
  | succ fuel ih =>
    intro s t h
    cases s with
    | nil => simp [tokensOfAux] at h
    | cons c rest =>
      simp only [tokensOfAux] at h
      by_cases hc : isSepChar c = true
      · rw [if_pos hc] at h
        obtain ⟨hne, hmem⟩ := ih rest t h
        exact ⟨hne, fun x hx => ⟨List.mem_cons_of_mem c (hmem x hx).1, (hmem x hx).2⟩⟩
      · rw [if_neg hc] at h
        rcases List.mem_cons.mp h with h | h
        · subst h
          refine ⟨by simp, ?_⟩
          intro x hx
          rcases List.mem_cons.mp hx with hx | hx
          · subst hx
            exact ⟨List.mem_cons_self x rest, by simpa using hc⟩
          · have hp := List.mem_takeWhile_imp hx
            have hm : x ∈ rest := (List.takeWhile_sublist _).mem hx
            exact ⟨List.mem_cons_of_mem c hm, by simpa using hp⟩
        · obtain ⟨hne, hmem⟩ := ih _ t h
          refine ⟨hne, ?_⟩
          intro x hx
          have hm : x ∈ rest := (List.dropWhile_sublist _).mem (hmem x hx).1
          exact ⟨List.mem_cons_of_mem c hm, (hmem x hx).2⟩

/-- The parts of a split contain only non-separator characters of the
input. -/
theorem splitOnChar_part_chars (sep : Char) :
    ∀ (s p : List Char), p ∈ splitOnChar sep s → ∀ c ∈ p, c ∈ s ∧ c ≠ sep := by
  intro s
  induction s with
  | nil =>
    intro p hp c hc
    simp [splitOnChar] at hp
    subst hp
    simp at hc
  | cons a rest ih =>
    intro p hp c hc
    simp only [splitOnChar] at hp
    by_cases ha : a = sep
    · rw [if_pos ha] at hp
      rcases List.mem_cons.mp hp with hp | hp
      · subst hp; simp at hc
      · obtain ⟨h1, h2⟩ := ih p hp c hc
        exact ⟨List.mem_cons_of_mem a h1, h2⟩
    · rw [if_neg ha] at hp
      cases hs : splitOnChar sep rest with
      | nil => exact absurd hs (splitOnChar_ne_nil sep rest)
      | cons h t =>
        rw [hs] at hp
        rcases List.mem_cons.mp hp with hp | hp
        · subst hp
          rcases List.mem_cons.mp hc with hc | hc
          · subst hc
            exact ⟨List.mem_cons_self c rest, ha⟩
          · obtain ⟨h1, h2⟩ := ih h (hs ▸ List.mem_cons_self h t) c hc
            exact ⟨List.mem_cons_of_mem a h1, h2⟩
        · obtain ⟨h1, h2⟩ := ih p (hs ▸ List.mem_cons_of_mem h hp) c hc
          exact ⟨List.mem_cons_of_mem a h1, h2⟩

/-- A string containing the separator splits into at least two parts. -/
theorem splitOnChar_of_contains (sep : Char) :
    ∀ (t : List Char), sep ∈ t → ∃ p1 p2 r2, splitOnChar sep t = p1 :: p2 :: r2 := by
  intro t
  induction t with
  | nil => intro h; simp at h
  | cons a rest ih =>
    intro h
    simp only [splitOnChar]
    by_cases ha : a = sep
    · rw [if_pos ha]
      cases hs : splitOnChar sep rest with
      | nil => exact absurd hs (splitOnChar_ne_nil sep rest)
      | cons p t' => exact ⟨[], p, t', rfl⟩
    · have hm : sep ∈ rest := by
        rcases List.mem_cons.mp h with h | h
        · exact absurd h.symm ha
        · exact h
      obtain ⟨p1, p2, r2, hs⟩ := ih hm
      rw [if_neg ha, hs]
      exact ⟨a :: p1, p2, r2, rfl⟩

/-- Pointwise equal functions give equal `flatMap`s. -/
theorem flatMap_congr_mem {α β : Type} (l : List α) (f g : α → List β)
    (h : ∀ x ∈ l, f x = g x) : l.flatMap f = l.flatMap g := by
  induction l with
  | nil => rfl
  | cons a rest ih =>
    simp only [List.flatMap_cons]
    rw [h a (List.mem_cons_self a rest), ih (fun x hx => h x (List.mem_cons_of_mem a hx))]

/-- C9 amended: on citation texts over digits, hyphens, commas and spaces,
`parseCitationNumbers` returns, in token order, exactly the contribution of
each token described by `tokenSpec`: the value of a plain numeric token, and
for a hyphenated token the run between its first two hyphen-split parts,
with an empty part counting as 0 and further parts ignored. -/
theorem parseCitationNumbers_characterized (s : List Char)
    (h : ∀ c ∈ s, isCiteChar c = true) :
    parseCitationNumbers s = (tokensOf s).flatMap tokenSpec := by
  unfold parseCitationNumbers
  apply flatMap_congr_mem
  intro t ht
  obtain ⟨hne, hmem⟩ := tokensOfAux_mem s.length s t ht
  have hchars : ∀ c ∈ t, c.isDigit = true ∨ c = '-' := by
    intro c hc
    obtain ⟨hcs, hsep⟩ := hmem c hc
    have hcc := h c hcs
    simp only [isCiteChar, Bool.or_eq_true, decide_eq_true_eq] at hcc
    rcases hcc with ((hd | hd) | hd) | hd
    · exact Or.inl hd
    · exact Or.inr hd
    · have hst : isSepChar c = true := by simp [isSepChar, hd]
      exact absurd hst (by simp [hsep])
    · have hst : isSepChar c = true := by simp [isSepChar, hd]
      exact absurd hst (by simp [hsep])
  unfold tokenNumbers tokenSpec
  by_cases hc : t.contains '-' = true
  · rw [if_pos hc, if_pos hc]
    have hcm : '-' ∈ t := by simpa using hc
    obtain ⟨p1, p2, r2, hs⟩ := splitOnChar_of_contains '-' t hcm
    rw [hs]
    have hval : ∀ p, p ∈ splitOnChar '-' t → jsNumberOfPart p = some (partVal p) := by
      intro p hp
      unfold jsNumberOfPart partVal
      by_cases hpe : p = []
      · rw [if_pos hpe, if_pos hpe]
      · rw [if_neg hpe, if_neg hpe]
        have : p.all (fun c => c.isDigit) = true := by
          rw [List.all_eq_true]
          intro c hcp
          obtain ⟨h1, h2⟩ := splitOnChar_part_chars '-' t p hp c hcp
          rcases hchars c h1 with hd | hd
          · simpa using hd
          · exact absurd hd h2
        rw [if_pos this]
    show (match jsNumberOfPart p1, jsNumberOfPart p2 with
        | some a, some b => jsRange a b
        | _, _ => []) = jsRange (partVal p1) (partVal p2)
    rw [hval p1 (hs ▸ List.mem_cons_self p1 (p2 :: r2)),
      hval p2 (hs ▸ List.mem_cons_of_mem p1 (List.mem_cons_self p2 r2))]
  · rw [if_neg hc, if_neg hc]
    have hdig : ∀ c ∈ t, c.isDigit = true := by
      intro c hcc
      rcases hchars c hcc with hd | hd
      · exact hd
      · refine absurd ?_ hc
        simpa using (show '-' ∈ t from hd ▸ hcc)
    unfold parseIntJS
    rw [takeWhile_all _ t hdig, if_neg hne]

/-- Witness for C9's amended theorem at the citation text `1-3 7`. -/
theorem parseCitationNumbers_characterized_witness :
    (∀ c ∈ ("1-3 7".data), isCiteChar c = true) ∧
      parseCitationNumbers ("1-3 7".data) = (tokensOf ("1-3 7".data)).flatMap tokenSpec := by
  exact ⟨by decide, parseCitationNumbers_characterized ("1-3 7".data) (by decide)⟩

/-! ## Re-chunking invariance at message boundaries (C8) -/

/-- One well-formed SSE message frame as this server emits it: an `event:`
line followed by a `data:` line and a blank line. -/
structure SSEMessage where
  ev : List Char
  dat : List Char
deriving DecidableEq

/-- Well-formedness of a message frame: a non-empty event name and no
embedded newlines. -/
def wfMessage (m : SSEMessage) : Prop :=
  m.ev ≠ [] ∧ '\n' ∉ m.ev ∧ '\n' ∉ m.dat

instance : DecidablePred wfMessage := fun m => by
  unfold wfMessage; infer_instance

/-- The transport text of one message frame. -/
def messageText (m : SSEMessage) : List Char :=
  evPfxChars ++ m.ev ++ '\n' :: (dataPfxChars ++ m.dat ++ ['\n', '\n'])

/-- The transport text of a run of message frames. -/
def messagesText (ms : List SSEMessage) : List Char := ms.flatMap messageText

/-- The three SSE lines of each message frame, in order. -/
def messageLines (ms : List SSEMessage) : List (List Char) :=
  ms.flatMap (fun m => [evPfxChars ++ m.ev, dataPfxChars ++ m.dat, []])

/-- Splitting an appended text whose first segment is separator-free peels
off that segment. -/
theorem splitOnChar_append_noSep (sep : Char) :
    ∀ (a b : List Char), sep ∉ a →
      splitOnChar sep (a ++ sep :: b) = a :: splitOnChar sep b := by
  intro a
  induction a with
  | nil => intro b _; simp [splitOnChar]
  | cons c a' ih =>
    intro b ha
    have hc : ¬c = sep := fun h => ha (h ▸ List.mem_cons_self c a')
    rw [List.cons_append]
    simp only [splitOnChar, if_neg hc]
    show (match splitOnChar sep (a' ++ sep :: b) with
        | [] => [[c]]
        | h :: t => (c :: h) :: t) = (c :: a') :: splitOnChar sep b
    rw [ih b (fun h => ha (List.mem_cons_of_mem c h))]

/-- Splitting the text of well-formed messages followed by a remainder
yields exactly the message lines followed by the split of the remainder. -/
theorem splitOnChar_messages (ms : List SSEMessage) (rest : List Char)
    (h : ∀ m ∈ ms, wfMessage m) :
    splitOnChar '\n' (messagesText ms ++ rest) =
      messageLines ms ++ splitOnChar '\n' rest := by
  induction ms with
  | nil => simp [messagesText, messageLines]
  | cons m ms' ih =>
    obtain ⟨_, hnev, hnd⟩ := h m (List.mem_cons_self m ms')
    have h1 : '\n' ∉ evPfxChars ++ m.ev := by
      intro hx
      rcases List.mem_append.mp hx with hx | hx
      · exact absurd hx (by decide)
      · exact hnev hx
    have h2 : '\n' ∉ dataPfxChars ++ m.dat := by
      intro hx
      rcases List.mem_append.mp hx with hx | hx
      · exact absurd hx (by decide)
      · exact hnd hx
    have hshape : messagesText (m :: ms') ++ rest =
        (evPfxChars ++ m.ev) ++ '\n' ::
          ((dataPfxChars ++ m.dat) ++ '\n' :: ('\n' :: (messagesText ms' ++ rest))) := by
      simp [messagesText, messageText]
    rw [hshape, splitOnChar_append_noSep '\n' _ _ h1, splitOnChar_append_noSep '\n' _ _ h2]
    have hnl : splitOnChar '\n' ('\n' :: (messagesText ms' ++ rest)) =
        [] :: splitOnChar '\n' (messagesText ms' ++ rest) := by
      simp [splitOnChar]
    rw [hnl, ih (fun x hx => h x (List.mem_cons_of_mem m hx))]
    simp [messageLines]

/-- A list starts with itself-plus-anything. -/
theorem leadsWith_self_append (p x : List Char) : leadsWith p (p ++ x) = true := by
  induction p with
  | nil => rfl
  | cons c p' ih => simp [leadsWith, ih]

/-- Processing the lines of well-formed message frames from a fresh state
dispatches each frame in order. -/
theorem processLines_messages (ms : List SSEMessage) (h : ∀ m ∈ ms, wfMessage m) :
    processLines (messageLines ms) [] [] =
      ms.flatMap (fun m => dispatchMessage m.ev m.dat) := by
  induction ms with
  | nil => rfl
  | cons m ms' ih =>
    obtain ⟨hev, _, _⟩ := h m (List.mem_cons_self m ms')
    have hl1 : leadsWith evPfxChars (evPfxChars ++ m.ev) = true :=
      leadsWith_self_append _ _
    have hl2 : leadsWith evPfxChars (dataPfxChars ++ m.dat) = false := rfl
    have hl3 : leadsWith dataPfxChars (dataPfxChars ++ m.dat) = true :=
      leadsWith_self_append _ _
    have hl4 : leadsWith evPfxChars ([] : List Char) = false := rfl
    have hl5 : leadsWith dataPfxChars ([] : List Char) = false := rfl
    have hd1 : (evPfxChars ++ m.ev).drop 7 = m.ev := by
      have h0 := List.drop_left evPfxChars m.ev
      rwa [show evPfxChars.length = 7 from rfl] at h0
    have hd2 : (dataPfxChars ++ m.dat).drop 6 = m.dat := by
      have h0 := List.drop_left dataPfxChars m.dat
      rwa [show dataPfxChars.length = 6 from rfl] at h0
    have hlines : messageLines (m :: ms') =
        (evPfxChars ++ m.ev) :: (dataPfxChars ++ m.dat) :: [] :: messageLines ms' := by
      simp [messageLines]
    rw [hlines]
    simp only [processLines, hl1, hl2, hl3, hl4, hl5, if_true, if_false,
      Bool.false_eq_true, hd1, hd2]
    rw [if_pos ⟨trivial, hev⟩, ih (fun x hx => h x (List.mem_cons_of_mem m hx))]
    simp

/-- The last element of a list ending in a known element. -/
theorem getLastD_append_single {α : Type} (xs : List α) (x d : α) :
    (xs ++ [x]).getLastD d = x := by
  induction xs with
  | nil => rfl
  | cons a xs' ih =>
    cases xs' with
    | nil => rfl
    | cons b xs'' => simpa using ih

/-- Dropping the last element of a list ending in a known element. -/
theorem dropLast_append_single {α : Type} (xs : List α) (x : α) :
    (xs ++ [x]).dropLast = xs := by
  induction xs with
  | nil => rfl
  | cons a xs' ih =>
    cases xs' with
    | nil => rfl
    | cons b xs'' => simpa using ih

/-- One read consisting of whole well-formed message frames leaves the
buffer empty and dispatches exactly those frames. -/
theorem readStep_messages (ms : List SSEMessage) (h : ∀ m ∈ ms, wfMessage m) :
    readStep [] (messagesText ms) =
      ([], ms.flatMap (fun m => dispatchMessage m.ev m.dat)) := by
  unfold readStep
  have hsplit : splitOnChar '\n' ([] ++ messagesText ms) =
      messageLines ms ++ [[]] := by
    have := splitOnChar_messages ms [] h
    simpa [splitOnChar] using this
  rw [hsplit]
  simp only [getLastD_append_single, dropLast_append_single]
  rw [processLines_messages ms h]

/-- Reads that are each a run of whole well-formed message frames dispatch
the concatenation of the per-frame dispatches. -/
theorem runReads_messages (groups : List (List SSEMessage))
    (h : ∀ m ∈ groups.flatten, wfMessage m) :
    runReads [] (groups.map messagesText) =
      (groups.flatten).flatMap (fun m => dispatchMessage m.ev m.dat) := by
  induction groups with
  | nil => rfl
  | cons g groups' ih =>
    have hg : ∀ m ∈ g, wfMessage m := by
      intro m hm
      exact h m (by simp [hm])
    have hrest : ∀ m ∈ groups'.flatten, wfMessage m := by
      intro m hm
      exact h m (by simp; exact Or.inr (by simpa using hm))
    simp only [List.map_cons, runReads, readStep_messages g hg]
    rw [ih hrest]
    simp

/-- C8 amended: the parsing is invariant under re-chunking only at message
boundaries — any partition of the byte stream into reads each consisting of
whole SSE messages produces the same callback sequence as delivering the
entire stream in one read.  (Splitting a message between its lines is not
invariant, because only the incomplete trailing line is buffered across
reads while the pending `event:`/`data:` state is reset on every read; see
the counterexample.) -/
theorem searchStream_message_rechunk_invariant (groups : List (List SSEMessage))
    (h : ∀ m ∈ groups.flatten, wfMessage m) :
    searchStream (groups.map messagesText) Outcome.closed =
      searchStream [messagesText groups.flatten] Outcome.closed := by
  unfold searchStream
  rw [runReads_messages groups h]
  have : runReads [] [messagesText groups.flatten] =
      (groups.flatten).flatMap (fun m => dispatchMessage m.ev m.dat) := by
    have hone := runReads_messages [groups.flatten] (by simpa using h)
    simpa using hone
  rw [this]

/-- Witness for C8's amended theorem: a metadata frame and a chunk frame,
delivered as two reads and as one. -/
theorem searchStream_message_rechunk_invariant_witness :
    (∀ m ∈ ([[⟨("metadata".data), ("\x7b\x7d".data)⟩],
        [⟨("chunk".data), ("\"hi\"".data)⟩]] : List (List SSEMessage)).flatten,
        wfMessage m) ∧
      searchStream
          (([[⟨("metadata".data), ("\x7b\x7d".data)⟩],
            [⟨("chunk".data), ("\"hi\"".data)⟩]] :
              List (List SSEMessage)).map messagesText) Outcome.closed =
        searchStream
          [messagesText ([[⟨("metadata".data), ("\x7b\x7d".data)⟩],
            [⟨("chunk".data), ("\"hi\"".data)⟩]] :
              List (List SSEMessage)).flatten] Outcome.closed := by
  exact ⟨by decide, searchStream_message_rechunk_invariant _ (by decide)⟩

end AclRag
